import Mathlib

/-!
Shallow embedding of `httpim.py` (bitrate16/httpim): a single-file HTTP
server that exposes a directory tree as a browsable image gallery with an
on-demand thumbnail cache.  URL paths and filesystem paths are modelled as
`List Char`; the filesystem is an oracle record; the GET handler is a pure
function from the decoded request path and the oracle to a response, the
updated oracle and a record of filesystem effects.
-/

namespace Httpim

/-- The characters removed by `url_path_strip` in httpim.py: space and slash. -/
def strippable (c : Char) : Bool := c = ' ' || c = '/'

/-- First while-loop of `url_path_strip` (httpim.py lines 270-273): remove
leading spaces and slashes. -/
def lstrip (l : List Char) : List Char := l.dropWhile strippable

/-- Second while-loop of `url_path_strip` (httpim.py lines 275-278): remove
trailing spaces and slashes. -/
def rstrip (l : List Char) : List Char := (l.reverse.dropWhile strippable).reverse

/-- `url_path_strip` from httpim.py: strips leading, then trailing, spaces
and slashes. -/
def url_path_strip (l : List Char) : List Char := rstrip (lstrip l)

/-- Python's substring test `pat in s`: some contiguous run of `s` equals
`pat`. -/
def containsSub (pat : List Char) : List Char → Bool
  | [] => pat.isPrefixOf []
  | c :: t => pat.isPrefixOf (c :: t) || containsSub pat t

/-- The `startswith` tuple test of `check_url_path_safety`
(httpim.py lines 224-231). -/
def startsBad (l : List Char) : Bool :=
  "~/".data.isPrefixOf l || "./".data.isPrefixOf l || "../".data.isPrefixOf l ||
    "//".data.isPrefixOf l || " ".data.isPrefixOf l

/-- The `endswith` tuple test of `check_url_path_safety`
(httpim.py lines 238-244). -/
def endsBad (l : List Char) : Bool :=
  "/~".data.isSuffixOf l || "/.".data.isSuffixOf l || "/..".data.isSuffixOf l ||
    " ".data.isSuffixOf l

/-- The substring test of `check_url_path_safety` (httpim.py line 250). -/
def containsBad (l : List Char) : Bool :=
  containsSub "/./".data l || containsSub "/../".data l || containsSub "/~/".data l

/-- `check_url_path_safety` from httpim.py: reject paths with leading
`~/`, `./`, `../`, `//` or space, trailing `/~`, `/.`, `/..` or space, or an
inner `/./`, `/../` or `/~/`. -/
def check_url_path_safety (l : List Char) : Bool :=
  if startsBad l then false
  else if endsBad l then false
  else if containsBad l then false
  else true

/-- Value of a hexadecimal digit, as `urllib.parse.unquote` accepts them
(`0-9`, `a-f`, `A-F`). -/
def hexVal (c : Char) : Option Nat :=
  if '0' ≤ c ∧ c ≤ '9' then some (c.toNat - '0'.toNat)
  else if 'a' ≤ c ∧ c ≤ 'f' then some (c.toNat - 'a'.toNat + 10)
  else if 'A' ≤ c ∧ c ≤ 'F' then some (c.toNat - 'A'.toNat + 10)
  else none

/-- Modelled from the Python stdlib `urllib.parse.unquote` (an external
collaborator of httpim.py), restricted to single-byte escapes: each `%XX`
with two hex digits becomes the character with that code, scanning left to
right without re-decoding produced characters; a `%` not followed by two
hex digits is kept literally.  Multi-byte UTF-8 escape sequences are out of
scope of this development. -/
def unquote : List Char → List Char
  | [] => []
  | '%' :: c1 :: c2 :: rest =>
    match hexVal c1, hexVal c2 with
    | some hi, some lo => Char.ofNat (16 * hi + lo) :: unquote rest
    | _, _ => '%' :: unquote (c1 :: c2 :: rest)
  | c :: rest => c :: unquote rest

/-- The Path Safety Filter of section 4.1 as the router applies it
(httpim.py line 352 and lines 353-357): the raw URL path — taken here
after the outer `.strip()` of line 352 — is first percent-decoded
(`unquote`), then normalized with `url_path_strip`, one leading slash is
put back, and the result is accepted iff `check_url_path_safety` holds. -/
def validate (p : List Char) : Option (List Char) :=
  let path := '/' :: url_path_strip (unquote p)
  if check_url_path_safety path then some path else none

/-- Character test: is a dot. -/
def isDot (c : Char) : Bool := c = '.'

/-- Character test: is not a dot. -/
def notDot (c : Char) : Bool := c ≠ '.'

/-- Character test: is not a slash. -/
def notSlash (c : Char) : Bool := c ≠ '/'

/-- Everything after the last `/` (the whole list when there is no `/`). -/
def lastComponent (l : List Char) : List Char :=
  (l.reverse.takeWhile notSlash).reverse

/-- Everything up to and including the last `/` (empty when there is no `/`). -/
def dirPart (l : List Char) : List Char :=
  (l.reverse.dropWhile notSlash).reverse

/-- `os.path.splitext`: split off the extension at the last `.` of the last
path component, unless every character of that component before this `.` is
itself a `.` (leading dots are not extension separators).  This matches
CPython `genericpath._splitext` for `/` as the separator. -/
def splitext (l : List Char) : List Char × List Char :=
  if ((lastComponent l).dropWhile isDot).any isDot then
    (dirPart l ++ (lastComponent l).takeWhile isDot ++
       ((((lastComponent l).dropWhile isDot).reverse.dropWhile notDot).tail).reverse,
     '.' :: (((lastComponent l).dropWhile isDot).reverse.takeWhile notDot).reverse)
  else (l, [])

/-- `file_can_thumb` from httpim.py: the lowercased path ends with one of
the recognized image extensions. -/
def file_can_thumb (l : List Char) : Bool :=
  ".png".data.isSuffixOf (l.map Char.toLower) ||
    ".jpg".data.isSuffixOf (l.map Char.toLower) ||
    ".jpeg".data.isSuffixOf (l.map Char.toLower) ||
    ".tiff".data.isSuffixOf (l.map Char.toLower) ||
    ".bmp".data.isSuffixOf (l.map Char.toLower) ||
    ".gif".data.isSuffixOf (l.map Char.toLower)

/-- Modelled from the Python stdlib `mimetypes` table (an external
collaborator of httpim.py): extension-to-MIME-type pairs, restricted to the
extensions relevant here.  Extensions absent from the stdlib table (such as
`.zzz`) are absent here as well. -/
def mime_table : List (List Char × List Char) :=
  [(".jpg".data, "image/jpeg".data), (".jpeg".data, "image/jpeg".data),
   (".png".data, "image/png".data), (".gif".data, "image/gif".data),
   (".bmp".data, "image/bmp".data), (".tiff".data, "image/tiff".data),
   (".txt".data, "text/plain".data), (".html".data, "text/html".data)]

/-- `mimetypes.guess_type(path)[0]` as httpim.py uses it: look up the
lowercased extension of the path; `none` models Python `None` for an
unregistered extension. -/
def guess_type (l : List Char) : Option (List Char) :=
  (mime_table.find? (fun e => e.1 = (splitext l).2.map Char.toLower)).map (fun e => e.2)

/-- Outcome of `email.utils.parsedate_to_datetime` on the If-Modified-Since
header value, as `_do_file` distinguishes the cases: parsing may raise
(`unparsable`), or yield a timezone-naive datetime, the UTC-singleton
timezone (`tzinfo is datetime.timezone.utc`), or some other tzinfo object.
Timestamps are UTC microseconds since the epoch. -/
inductive IMSVal
  | unparsable
  | naive (t : Int)
  | utc (t : Int)
  | otherTZ (t : Int)
deriving DecidableEq, Repr

/-- The request headers `_do_file` consults. -/
structure Headers where
  ifModifiedSince : Option IMSVal
  hasIfNoneMatch : Bool
deriving DecidableEq, Repr

/-- Filesystem oracle: the queries httpim.py makes.  `mtimeMicro` is
`st_mtime` in microseconds; `decodable` says whether
`Image.open` + `thumbnail` + `save` would all succeed for a source path. -/
structure FS where
  isDir : List Char → Bool
  pathExists : List Char → Bool
  canOpen : List Char → Bool
  mtimeMicro : List Char → Int
  sizeBytes : List Char → Nat
  decodable : List Char → Bool

/-- Result of `HTTPIM._do_file path`: 404 when the file cannot be opened,
304 with empty body, or 200 streaming the full contents of `path` with the
Content-Type header value actually sent and the Content-Length. -/
inductive FileResp
  | notFound
  | notModified
  | ok (servedPath : List Char) (contentTypeSent : List Char) (contentLength : Nat)
deriving DecidableEq, Repr

/-- The Content-Type header value Python sends: `send_header` formats the
value with `%s`, so a `None` ctype is sent as the literal text `None`. -/
def sentCType (c : Option (List Char)) : List Char :=
  match c with
  | some s => s
  | none => "None".data

/-- `HTTPIM._do_file` from httpim.py.  Notes on fidelity: the result of
`last_modified.replace(microsecond=0)` is discarded by the source, so the
304 comparison runs at full (microsecond) precision; a naive parsed date
evaluates `ts.tzinfo.replace` on `None`, which raises and is swallowed by
the surrounding `except`, skipping the 304 path; a parsed date whose tzinfo
is not the `datetime.timezone.utc` singleton also skips the 304 path.
`send304` is the condition under which `_do_file` takes the 304 branch. -/
def send304 (fs : FS) (h : Headers) (path : List Char) : Bool :=
  match h.ifModifiedSince, h.hasIfNoneMatch with
  | some v, false =>
    match v with
    | IMSVal.utc t => decide (fs.mtimeMicro path ≤ t)
    | _ => false
  | _, _ => false

/-- `HTTPIM._do_file` from httpim.py: 404 when `open` fails, otherwise 304
when the conditional-GET branch fires, otherwise a 200 with the guessed
Content-Type (sent through `sentCType`) and the file's size. -/
def do_file (fs : FS) (h : Headers) (path : List Char) : FileResp :=
  if fs.canOpen path then
    if send304 fs h path then FileResp.notModified
    else FileResp.ok path (sentCType (guess_type path)) (fs.sizeBytes path)
  else FileResp.notFound

/-- Filesystem effects of handling one request: paths consulted, files
created, and source images handed to the image decoder. -/
structure Effects where
  accessed : List (List Char)
  created : List (List Char)
  decodedImages : List (List Char)
deriving DecidableEq, Repr

/-- Response of `HTTPIM.do_GET`: 404, a 200 directory listing, a `_do_file`
result, or the silent fall-through that sends nothing at all. -/
inductive Resp
  | notFound
  | dirListing (realpath : List Char) (relpath : List Char)
  | file (r : FileResp)
  | noResponse
deriving DecidableEq, Repr

/-- `os.path.join` for a non-empty left part, as httpim.py reaches it.
When the right part is absolute (begins with `/`) Python discards the left
part entirely and returns the right part — reachable here through
`/__httpim_cache__//...` requests, since only a leading `//` is rejected.
Otherwise one separator is inserted unless the left part already ends with
one. -/
def pjoin (a b : List Char) : List Char :=
  if b.head? = some '/' then b
  else if a.getLast? = some '/' then a ++ b
  else a ++ '/' :: b

/-- The reserved cache URL marker `/__httpim_cache__/`. -/
def cacheMark : List Char := "/__httpim_cache__/".data

/-- Lines 374-375 of httpim.py: all thumbnails are JPEG, so the cache file
path is the splitext stem with `.jpg` appended. -/
def jpgCachePath (cachepath : List Char) : List Char :=
  (splitext cachepath).1 ++ ".jpg".data

/-- The filesystem after a successful `img.save(cachepath, 'JPEG', ...)`:
the cache file now exists and can be opened; nothing else changes. -/
def saveThumb (fs : FS) (cachepath : List Char) : FS :=
  { fs with
    pathExists := fun q => if q = cachepath then true else fs.pathExists q,
    canOpen := fun q => if q = cachepath then true else fs.canOpen q }

/-- Everything `do_GET` produces: the response, the filesystem as left
behind, and the recorded effects. -/
structure GetResult where
  resp : Resp
  fs : FS
  eff : Effects

/-- `HTTPIM.do_GET` from httpim.py, starting from the decoded request path
`p` (the value of `unquote(parsed.path.strip())`).  `root` is `args.path`
(absolute, from `os.path.abspath`).  A successful `img.save` makes the
cache file exist and openable; everything else in the oracle is unchanged. -/
def do_GET (root : List Char) (fs : FS) (h : Headers) (p : List Char) : GetResult :=
  let path := '/' :: url_path_strip p
  if check_url_path_safety path then
    let cacheRoot := pjoin root "__httpim_cache__".data
    let cacheReq := cacheMark.isPrefixOf path
    let rel := path.drop cacheMark.length
    let realpath := if cacheReq then pjoin root rel else pjoin root (path.drop 1)
    if fs.isDir realpath then
      ⟨Resp.dirListing realpath path, fs, ⟨[realpath], [], []⟩⟩
    else if cacheReq then
      let cachepath := jpgCachePath (pjoin cacheRoot rel)
      if fs.pathExists cachepath then
        ⟨Resp.file (do_file fs h cachepath), fs, ⟨[realpath, cachepath], [], []⟩⟩
      else if file_can_thumb realpath then
        if fs.decodable realpath then
          ⟨Resp.file (do_file (saveThumb fs cachepath) h cachepath), saveThumb fs cachepath,
            ⟨[realpath, cachepath], [cachepath], [realpath]⟩⟩
        else
          ⟨Resp.notFound, fs, ⟨[realpath, cachepath], [], [realpath]⟩⟩
      else
        ⟨Resp.notFound, fs, ⟨[realpath, cachepath], [], []⟩⟩
    else
      if fs.pathExists realpath then
        ⟨Resp.file (do_file fs h realpath), fs, ⟨[realpath], [], []⟩⟩
      else
        ⟨Resp.noResponse, fs, ⟨[realpath], [], []⟩⟩
  else ⟨Resp.notFound, fs, ⟨[], [], []⟩⟩

/-! Concrete oracles and headers used by witnesses and counterexamples. -/

/-- Concrete filesystem oracle on which nothing exists. -/
def fsEmpty : FS :=
  ⟨fun _ => false, fun _ => false, fun _ => false, fun _ => 0, fun _ => 0, fun _ => false⟩

/-- Headers without If-Modified-Since and without If-None-Match. -/
def hdrNone : Headers := ⟨none, false⟩

/-- Concrete filesystem oracle on which every path is a directory. -/
def fsAllDir : FS :=
  ⟨fun _ => true, fun _ => false, fun _ => false, fun _ => 0, fun _ => 0, fun _ => false⟩

/-- Concrete filesystem oracle where every path opens, with size 7. -/
def fsOpenAll : FS :=
  ⟨fun _ => false, fun _ => false, fun _ => true, fun _ => 0, fun _ => 7, fun _ => false⟩

/-- Filesystem oracle for the C4 failing input: one openable file whose
modification time is 10.5 seconds (10500000 microseconds) past the epoch,
3 bytes long. -/
def fsC4 : FS :=
  ⟨fun _ => false, fun _ => false, fun _ => true, fun _ => 10500000, fun _ => 3,
    fun _ => false⟩

/-- Filesystem oracle with a single already-generated thumbnail at
`/srv/__httpim_cache__/a.jpg`, 9 bytes. -/
def fsC5 : FS :=
  ⟨fun _ => false,
    fun q => q == "/srv/__httpim_cache__/a.jpg".data,
    fun q => q == "/srv/__httpim_cache__/a.jpg".data,
    fun _ => 0, fun _ => 9, fun _ => false⟩

/-- Filesystem oracle where only the source image `/srv/pics/cat.png` is
decodable; nothing exists on disk yet. -/
def fsC3 : FS :=
  ⟨fun _ => false, fun _ => false, fun _ => false, fun _ => 0, fun _ => 5,
    fun q => q == "/srv/pics/cat.png".data⟩

/-- Filesystem oracle where only the filesystem-root image `/x.png` is
decodable; nothing exists on disk yet. -/
def fsC3b : FS :=
  ⟨fun _ => false, fun _ => false, fun _ => false, fun _ => 0, fun _ => 0,
    fun q => q == "/x.png".data⟩

/-- Filesystem oracle where only the filesystem-root file `/x.jpg` exists
and opens, 4 bytes. -/
def fsXjpg : FS :=
  ⟨fun _ => false,
    fun q => q == "/x.jpg".data,
    fun q => q == "/x.jpg".data,
    fun _ => 0, fun _ => 4, fun _ => false⟩

/-- `seg` occurs as a whole path segment of `path`: the entire path, a
leading `seg/`, a trailing `/seg`, or an inner `/seg/`. -/
def hasSegment (path seg : List Char) : Bool :=
  path == seg || (seg ++ ['/']).isPrefixOf path ||
    ('/' :: seg).isSuffixOf path || containsSub ('/' :: seg ++ ['/']) path

/-- The decoded request path has `~` as an isolated path segment. -/
def hasTildeSegment (p : List Char) : Bool := hasSegment p "~".data

/-! Sanity checks: the embedded functions reproduce the examples given in
the source docstrings and the documented behavior of the Python stdlib. -/

theorem sanity_url_path_strip_spaces :
    url_path_strip " / /  /foo/bar/ /   / ".data = "foo/bar".data := by decide

theorem sanity_url_path_strip_slashes :
    url_path_strip "///foo/bar///".data = "foo/bar".data := by decide

theorem sanity_safety_rejects_up : check_url_path_safety "/a/../b".data = false := by decide

theorem sanity_safety_inner_doubleslash : check_url_path_safety "/a//b".data = true := by
  decide

theorem sanity_splitext_plain : splitext "a/b.txt".data = ("a/b".data, ".txt".data) := by
  decide

theorem sanity_splitext_hidden : splitext "a/.bashrc".data = ("a/.bashrc".data, []) := by
  decide

theorem sanity_splitext_dots : splitext "....jpg".data = ("....jpg".data, []) := by decide

theorem sanity_splitext_leading_dots :
    splitext "a/..b.c".data = ("a/..b".data, ".c".data) := by decide

theorem sanity_jpgCachePath :
    jpgCachePath "/s/__httpim_cache__/a.png".data = "/s/__httpim_cache__/a.jpg".data := by
  decide

theorem sanity_guess_type_upper : guess_type "/x/a.JPG".data = some "image/jpeg".data := by
  decide

theorem sanity_guess_type_unknown : guess_type "/x/a.zzz".data = none := by decide

theorem sanity_can_thumb_mixed_case : file_can_thumb "/x/a.PnG".data = true := by decide

theorem sanity_pjoin_relative : pjoin "/srv".data "a/b.png".data = "/srv/a/b.png".data := by
  decide

theorem sanity_pjoin_absolute : pjoin "/srv".data "/x.png".data = "/x.png".data := by decide

theorem sanity_unquote_escapes : unquote "/a%2520b".data = "/a%20b".data ∧
    unquote "/a%20b".data = "/a b".data ∧ unquote "%2%34".data = "%24".data := by decide

/-- The join-discard edge is reproduced end to end: a `/__httpim_cache__//x.txt`
request consults the filesystem-root file `/x.jpg`, exactly as the program
does, and serves it when it exists. -/
theorem sanity_cache_escape_served :
    (do_GET "/srv".data fsXjpg hdrNone "/__httpim_cache__//x.txt".data).resp =
      Resp.file (FileResp.ok "/x.jpg".data "image/jpeg".data 4) := by decide

/-! ### Generic list helpers -/

theorem dropWhile_idem {α : Type} (q : α → Bool) (l : List α) :
    (l.dropWhile q).dropWhile q = l.dropWhile q := by
  induction l with
  | nil => rfl
  | cons c t ih =>
    cases hqc : q c with
    | true => simpa [List.dropWhile_cons, hqc] using ih
    | false => simp [List.dropWhile_cons, hqc]

theorem dropWhile_eq_self_of_head {α : Type} {q : α → Bool} {c : α} {t : List α}
    (h : q c = false) : (c :: t).dropWhile q = c :: t := by
  simp [List.dropWhile_cons, h]

theorem dropWhile_eq_self_of_pfx {α : Type} {q : α → Bool} {s l : List α}
    (hp : s <+: l) (hl : l.dropWhile q = l) : s.dropWhile q = s := by
  cases s with
  | nil => rfl
  | cons c t =>
    obtain ⟨r, hr⟩ := hp
    subst hr
    cases hqc : q c with
    | false => simp [List.dropWhile_cons, hqc]
    | true =>
      rw [List.cons_append, List.dropWhile_cons, if_pos (by simp [hqc])] at hl
      have hlen := (List.dropWhile_suffix (l := t ++ r) q).length_le
      rw [hl] at hlen
      simp at hlen

theorem dropWhile_append_of_ne {α : Type} {q : α → Bool} {a : List α} (b : List α)
    (h : a.dropWhile q ≠ []) : (a ++ b).dropWhile q = a.dropWhile q ++ b := by
  rw [List.dropWhile_append, if_neg (by simpa using h)]

theorem dropWhile_append_of_eq {α : Type} {q : α → Bool} {a : List α} (b : List α)
    (h : a.dropWhile q = []) : (a ++ b).dropWhile q = b.dropWhile q := by
  rw [List.dropWhile_append, if_pos (by simpa using h)]

theorem containsSub_iff (pat l : List Char) : containsSub pat l = true ↔ pat <:+: l := by
  induction l with
  | nil => simp [containsSub, List.isPrefixOf_iff_prefix]
  | cons c t ih =>
    simp [containsSub, ih, List.isPrefixOf_iff_prefix, List.infix_cons_iff]

/-! ### Facts about url_path_strip -/

theorem rstrip_pfx (l : List Char) : rstrip l <+: l := by
  have h := List.reverse_prefix.mpr (List.dropWhile_suffix (l := l.reverse) strippable)
  simpa [rstrip] using h

theorem rstrip_idem (l : List Char) : rstrip (rstrip l) = rstrip l := by
  unfold rstrip
  rw [List.reverse_reverse, dropWhile_idem]

theorem lstrip_of_strip (p : List Char) :
    lstrip (url_path_strip p) = url_path_strip p :=
  dropWhile_eq_self_of_pfx (rstrip_pfx (lstrip p)) (dropWhile_idem _ _)

theorem strip_of_cons_strip (p : List Char) :
    url_path_strip ('/' :: url_path_strip p) = url_path_strip p := by
  have h0 : lstrip ('/' :: url_path_strip p) = lstrip (url_path_strip p) := by
    simp [lstrip, List.dropWhile_cons, strippable]
  show rstrip (lstrip ('/' :: url_path_strip p)) = url_path_strip p
  rw [h0, lstrip_of_strip]
  exact rstrip_idem (lstrip p)

/-! ### Stripping cannot erase an inner traversal pattern -/

theorem seg_reverse_dropWhile {seg : List Char} (hne : seg ≠ [])
    (hq : ∀ c ∈ seg, strippable c = false) :
    seg.reverse.dropWhile strippable = seg.reverse := by
  cases hrev : seg.reverse with
  | nil => exact absurd (by simpa using hrev) hne
  | cons c t =>
    have hc : c ∈ seg := by
      have : c ∈ seg.reverse := by rw [hrev]; exact List.mem_cons_self c t
      simpa using this
    exact dropWhile_eq_self_of_head (hq c hc)

/-- Dropping leading and trailing spaces/slashes around an occurrence of
`/seg/` (for `seg` made of non-strippable characters) leaves, once the
leading slash is put back, either an inner `/seg/` or a final `/seg`. -/
theorem strip_keeps_slashSeg (seg a b : List Char) (hne : seg ≠ [])
    (hq : ∀ c ∈ seg, strippable c = false) :
    ('/' :: seg ++ ['/']) <:+: ('/' :: url_path_strip (a ++ '/' :: seg ++ '/' :: b)) ∨
      ('/' :: seg) <:+ ('/' :: url_path_strip (a ++ '/' :: seg ++ '/' :: b)) := by
  obtain ⟨c, t, rfl⟩ : ∃ c t, seg = c :: t := by
    cases seg with
    | nil => exact absurd rfl hne
    | cons c t => exact ⟨c, t, rfl⟩
  have hqc : strippable c = false := hq c (List.mem_cons_self c t)
  have hslash : strippable '/' = true := by decide
  have hrevseg : (c :: t).reverse.dropWhile strippable = (c :: t).reverse :=
    seg_reverse_dropWhile hne hq
  show _ ∨ _
  unfold url_path_strip
  rcases eq_or_ne (a.dropWhile strippable) [] with ha | ha
  · have h1 : lstrip (a ++ '/' :: (c :: t) ++ '/' :: b) = (c :: t) ++ '/' :: b := by
      unfold lstrip
      rw [show a ++ '/' :: (c :: t) ++ '/' :: b = a ++ ('/' :: ((c :: t) ++ '/' :: b)) by
        simp]
      rw [dropWhile_append_of_eq _ ha, List.dropWhile_cons, if_pos hslash,
        List.cons_append]
      exact dropWhile_eq_self_of_head hqc
    rw [h1]
    rcases eq_or_ne (b.reverse.dropWhile strippable) [] with hb | hb
    · right
      have h2 : rstrip ((c :: t) ++ '/' :: b) = c :: t := by
        unfold rstrip
        rw [show ((c :: t) ++ '/' :: b).reverse = b.reverse ++ (['/'] ++ (c :: t).reverse) by
          simp]
        rw [dropWhile_append_of_eq _ hb, List.singleton_append, List.dropWhile_cons,
          if_pos hslash, hrevseg, List.reverse_reverse]
      rw [h2]
    · left
      have h2 : rstrip ((c :: t) ++ '/' :: b) =
          (c :: t) ++ '/' :: (b.reverse.dropWhile strippable).reverse := by
        unfold rstrip
        rw [show ((c :: t) ++ '/' :: b).reverse = b.reverse ++ (['/'] ++ (c :: t).reverse) by
          simp]
        rw [dropWhile_append_of_ne _ hb]
        simp
      rw [h2]
      exact ⟨[], (b.reverse.dropWhile strippable).reverse, by simp⟩
  · have h1 : lstrip (a ++ '/' :: (c :: t) ++ '/' :: b) =
        a.dropWhile strippable ++ '/' :: (c :: t) ++ '/' :: b := by
      unfold lstrip
      rw [show a ++ '/' :: (c :: t) ++ '/' :: b = a ++ ('/' :: ((c :: t) ++ '/' :: b)) by
        simp]
      rw [dropWhile_append_of_ne _ ha]
      simp
    rw [h1]
    rcases eq_or_ne (b.reverse.dropWhile strippable) [] with hb | hb
    · right
      have h2 : rstrip (a.dropWhile strippable ++ '/' :: (c :: t) ++ '/' :: b) =
          a.dropWhile strippable ++ '/' :: (c :: t) := by
        unfold rstrip
        rw [show a.dropWhile strippable ++ '/' :: (c :: t) ++ '/' :: b =
            (a.dropWhile strippable ++ '/' :: (c :: t)) ++ '/' :: b by simp]
        rw [show ((a.dropWhile strippable ++ '/' :: (c :: t)) ++ '/' :: b).reverse =
            b.reverse ++ (['/'] ++ (a.dropWhile strippable ++ '/' :: (c :: t)).reverse) by
          simp]
        rw [dropWhile_append_of_eq _ hb, List.singleton_append, List.dropWhile_cons,
          if_pos hslash]
        rw [show (a.dropWhile strippable ++ '/' :: (c :: t)).reverse =
            (c :: t).reverse ++ ('/' :: (a.dropWhile strippable).reverse) by simp]
        rw [dropWhile_append_of_ne]
        · rw [hrevseg]; simp
        · rw [hrevseg]; simp
      rw [h2]
      exact ⟨'/' :: a.dropWhile strippable, by simp⟩
    · left
      have h2 : rstrip (a.dropWhile strippable ++ '/' :: (c :: t) ++ '/' :: b) =
          a.dropWhile strippable ++ '/' :: (c :: t) ++
            '/' :: (b.reverse.dropWhile strippable).reverse := by
        unfold rstrip
        rw [show (a.dropWhile strippable ++ '/' :: (c :: t) ++ '/' :: b).reverse =
            b.reverse ++ (['/'] ++ ((c :: t).reverse ++ ('/' :: (a.dropWhile strippable).reverse))) by
          simp]
        rw [dropWhile_append_of_ne _ hb]
        simp
      rw [h2]
      exact ⟨'/' :: a.dropWhile strippable, (b.reverse.dropWhile strippable).reverse, by simp⟩

/-- Stripping around a `/seg` occurrence at the very end keeps a final `/seg`. -/
theorem strip_keeps_endSeg (seg a : List Char) (hne : seg ≠ [])
    (hq : ∀ c ∈ seg, strippable c = false) :
    ('/' :: seg) <:+ ('/' :: url_path_strip (a ++ '/' :: seg)) := by
  obtain ⟨c, t, rfl⟩ : ∃ c t, seg = c :: t := by
    cases seg with
    | nil => exact absurd rfl hne
    | cons c t => exact ⟨c, t, rfl⟩
  have hqc : strippable c = false := hq c (List.mem_cons_self c t)
  have hrevseg : (c :: t).reverse.dropWhile strippable = (c :: t).reverse :=
    seg_reverse_dropWhile hne hq
  unfold url_path_strip
  rcases eq_or_ne (a.dropWhile strippable) [] with ha | ha
  · have h1 : lstrip (a ++ '/' :: (c :: t)) = c :: t := by
      unfold lstrip
      rw [dropWhile_append_of_eq _ ha, List.dropWhile_cons, if_pos (by decide)]
      exact dropWhile_eq_self_of_head hqc
    rw [h1]
    have h2 : rstrip (c :: t) = c :: t := by
      unfold rstrip
      rw [hrevseg, List.reverse_reverse]
    rw [h2]
  · have h1 : lstrip (a ++ '/' :: (c :: t)) = a.dropWhile strippable ++ '/' :: (c :: t) := by
      unfold lstrip
      rw [dropWhile_append_of_ne _ ha]
    rw [h1]
    have h2 : rstrip (a.dropWhile strippable ++ '/' :: (c :: t)) =
        a.dropWhile strippable ++ '/' :: (c :: t) := by
      unfold rstrip
      rw [show (a.dropWhile strippable ++ '/' :: (c :: t)).reverse =
          (c :: t).reverse ++ ('/' :: (a.dropWhile strippable).reverse) by simp]
      rw [dropWhile_append_of_ne]
      · rw [hrevseg]; simp
      · rw [hrevseg]; simp
    rw [h2]
    exact ⟨'/' :: a.dropWhile strippable, by simp⟩

/-- Stripping around a `seg/` occurrence at the very start keeps, once the
leading slash is put back, an inner `/seg/` or a final `/seg`. -/
theorem strip_keeps_startSeg (seg b : List Char) (hne : seg ≠ [])
    (hq : ∀ c ∈ seg, strippable c = false) :
    ('/' :: seg ++ ['/']) <:+: ('/' :: url_path_strip (seg ++ '/' :: b)) ∨
      ('/' :: seg) <:+ ('/' :: url_path_strip (seg ++ '/' :: b)) := by
  obtain ⟨c, t, rfl⟩ : ∃ c t, seg = c :: t := by
    cases seg with
    | nil => exact absurd rfl hne
    | cons c t => exact ⟨c, t, rfl⟩
  have hqc : strippable c = false := hq c (List.mem_cons_self c t)
  have hrevseg : (c :: t).reverse.dropWhile strippable = (c :: t).reverse :=
    seg_reverse_dropWhile hne hq
  unfold url_path_strip
  have h1 : lstrip ((c :: t) ++ '/' :: b) = (c :: t) ++ '/' :: b := by
    unfold lstrip
    rw [List.cons_append]
    exact dropWhile_eq_self_of_head hqc
  rw [h1]
  rcases eq_or_ne (b.reverse.dropWhile strippable) [] with hb | hb
  · right
    have h2 : rstrip ((c :: t) ++ '/' :: b) = c :: t := by
      unfold rstrip
      rw [show ((c :: t) ++ '/' :: b).reverse = b.reverse ++ (['/'] ++ (c :: t).reverse) by
        simp]
      rw [dropWhile_append_of_eq _ hb, List.singleton_append, List.dropWhile_cons,
        if_pos (by decide), hrevseg, List.reverse_reverse]
    rw [h2]
  · left
    have h2 : rstrip ((c :: t) ++ '/' :: b) =
        (c :: t) ++ '/' :: (b.reverse.dropWhile strippable).reverse := by
      unfold rstrip
      rw [show ((c :: t) ++ '/' :: b).reverse = b.reverse ++ (['/'] ++ (c :: t).reverse) by
        simp]
      rw [dropWhile_append_of_ne _ hb]
      simp
    rw [h2]
    exact ⟨[], (b.reverse.dropWhile strippable).reverse, by simp⟩

/-! ### Safety rejection from the individual checks -/

theorem safety_false_of_endsBad {l : List Char} (h : endsBad l = true) :
    check_url_path_safety l = false := by
  simp [check_url_path_safety, h]

theorem safety_false_of_containsBad {l : List Char} (h : containsBad l = true) :
    check_url_path_safety l = false := by
  simp [check_url_path_safety, h]

theorem safety_strip_false_of_slashSegSlash (seg : List Char) {p : List Char}
    (hne : seg ≠ []) (hq : ∀ c ∈ seg, strippable c = false)
    (hsub : ('/' :: seg ++ ['/']) <:+: p)
    (hcb : ∀ l, containsSub ('/' :: seg ++ ['/']) l = true → containsBad l = true)
    (hend : ∀ l, ('/' :: seg).isSuffixOf l = true → endsBad l = true) :
    check_url_path_safety ('/' :: url_path_strip p) = false := by
  obtain ⟨s, u, hst⟩ := hsub
  have hp : p = s ++ '/' :: seg ++ '/' :: u := by rw [← hst]; simp
  rw [hp]
  rcases strip_keeps_slashSeg seg s u hne hq with hI | hS
  · exact safety_false_of_containsBad (hcb _ ((containsSub_iff _ _).mpr hI))
  · exact safety_false_of_endsBad (hend _ (List.isSuffixOf_iff_suffix.mpr hS))

/-- A decoded request path containing `/../`, `/./` or a `~` segment fails
`check_url_path_safety` after the router's normalization. -/
theorem safety_strip_false (p : List Char)
    (hbad : containsSub "/../".data p = true ∨ containsSub "/./".data p = true ∨
      hasTildeSegment p = true) :
    check_url_path_safety ('/' :: url_path_strip p) = false := by
  rcases hbad with h1 | h2 | h3
  · have hI : ('/' :: "..".data ++ ['/']) <:+: p := by
      have := (containsSub_iff _ _).mp h1
      rwa [show "/../".data = '/' :: "..".data ++ ['/'] by decide] at this
    exact safety_strip_false_of_slashSegSlash "..".data (by decide) (by decide) hI
      (fun l hl => by
        rw [show ('/' :: "..".data ++ ['/']) = "/../".data by decide] at hl
        simp [containsBad, hl])
      (fun l hl => by
        rw [show ('/' :: "..".data) = "/..".data by decide] at hl
        simp [endsBad, hl])
  · have hI : ('/' :: ".".data ++ ['/']) <:+: p := by
      have := (containsSub_iff _ _).mp h2
      rwa [show "/./".data = '/' :: ".".data ++ ['/'] by decide] at this
    exact safety_strip_false_of_slashSegSlash ".".data (by decide) (by decide) hI
      (fun l hl => by
        rw [show ('/' :: ".".data ++ ['/']) = "/./".data by decide] at hl
        simp [containsBad, hl])
      (fun l hl => by
        rw [show ('/' :: ".".data) = "/.".data by decide] at hl
        simp [endsBad, hl])
  · have hcb : ∀ l, containsSub ('/' :: "~".data ++ ['/']) l = true → containsBad l = true := by
      intro l hl
      rw [show ('/' :: "~".data ++ ['/']) = "/~/".data by decide] at hl
      simp [containsBad, hl]
    have hend : ∀ l, ('/' :: "~".data).isSuffixOf l = true → endsBad l = true := by
      intro l hl
      rw [show ('/' :: "~".data) = "/~".data by decide] at hl
      simp [endsBad, hl]
    simp only [hasTildeSegment, hasSegment, Bool.or_eq_true, beq_iff_eq,
      List.isPrefixOf_iff_prefix, List.isSuffixOf_iff_suffix, containsSub_iff] at h3
    rcases h3 with ((rfl | hpfx) | hsfx) | hinf
    · decide
    · obtain ⟨u, hu⟩ := hpfx
      have hp : p = "~".data ++ '/' :: u := by rw [← hu]; simp
      rw [hp]
      rcases strip_keeps_startSeg "~".data u (by decide) (by decide) with hI | hS
      · exact safety_false_of_containsBad (hcb _ ((containsSub_iff _ _).mpr hI))
      · exact safety_false_of_endsBad (hend _ (List.isSuffixOf_iff_suffix.mpr hS))
    · obtain ⟨u, hu⟩ := hsfx
      have hp : p = u ++ '/' :: "~".data := by rw [← hu]
      rw [hp]
      exact safety_false_of_endsBad
        (hend _ (List.isSuffixOf_iff_suffix.mpr (strip_keeps_endSeg "~".data u (by decide)
          (by decide))))
    · exact safety_strip_false_of_slashSegSlash "~".data (by decide) (by decide) hinf hcb hend

/-! ### C1: traversal patterns are rejected with no filesystem access -/

/-- C1: for every GET request whose percent-decoded path contains `/../`,
`/./`, or `~` as an isolated path segment, the router answers 404, leaves
the filesystem untouched and consults no filesystem path at all (so in
particular none outside the served root). -/
theorem C1_unsafe_paths_404 (root : List Char) (fs : FS) (h : Headers) (p : List Char)
    (hbad : containsSub "/../".data p = true ∨ containsSub "/./".data p = true ∨
      hasTildeSegment p = true) :
    do_GET root fs h p = ⟨Resp.notFound, fs, ⟨[], [], []⟩⟩ := by
  have hsafe := safety_strip_false p hbad
  simp [do_GET, hsafe]

/-- Witness for C1 at a concrete traversal request. -/
theorem C1_witness :
    do_GET "/srv".data fsEmpty hdrNone "/a/../b".data =
      ⟨Resp.notFound, fsEmpty, ⟨[], [], []⟩⟩ :=
  C1_unsafe_paths_404 "/srv".data fsEmpty hdrNone "/a/../b".data (Or.inl (by decide))

/-! ### C2: shape of the normalized routing path -/

theorem dropWhile_head_false {α : Type} (q : α → Bool) (l : List α) {c : α} {t : List α}
    (h : l.dropWhile q = c :: t) : q c = false := by
  induction l with
  | nil => cases h
  | cons d u ih =>
    rw [List.dropWhile_cons] at h
    by_cases hd : q d = true
    · rw [if_pos hd] at h
      exact ih h
    · rw [if_neg hd] at h
      cases h
      simpa using hd

theorem strip_head_not (p : List Char) {c : Char} {t : List Char}
    (hs : url_path_strip p = c :: t) : strippable c = false := by
  have h := lstrip_of_strip p
  rw [hs] at h
  exact dropWhile_head_false strippable (c :: t) h

theorem strip_last_not (p : List Char) {c : Char} {t : List Char}
    (hs : (url_path_strip p).reverse = c :: t) : strippable c = false := by
  have hrev : (url_path_strip p).reverse = (lstrip p).reverse.dropWhile strippable := by
    unfold url_path_strip rstrip
    rw [List.reverse_reverse]
  rw [hrev] at hs
  exact dropWhile_head_false strippable _ hs

theorem doubleslash_not_pfx (p : List Char) :
    "//".data.isPrefixOf ('/' :: url_path_strip p) = false := by
  cases hs : url_path_strip p with
  | nil => decide
  | cons c t =>
    have hc := strip_head_not p hs
    have hc2 : ¬('/' = c) := by
      intro hcc
      rw [← hcc] at hc
      simp [strippable] at hc
    rw [show "//".data = ['/', '/'] by rfl]
    simp [List.isPrefixOf, hc2]

theorem space_not_sfx (p : List Char) :
    " ".data.isSuffixOf ('/' :: url_path_strip p) = false := by
  cases hs : (url_path_strip p).reverse with
  | nil =>
    have h0 : url_path_strip p = [] := by simpa using hs
    rw [h0]
    decide
  | cons c t =>
    have hc := strip_last_not p hs
    have hc2 : ¬(' ' = c) := by
      intro hcc
      rw [← hcc] at hc
      simp [strippable] at hc
    show (" ".data.reverse.isPrefixOf ('/' :: url_path_strip p).reverse) = false
    rw [show " ".data.reverse = [' '] from rfl,
      show ('/' :: url_path_strip p).reverse = (url_path_strip p).reverse ++ ['/'] by simp,
      hs]
    simp [List.isPrefixOf, hc2]

theorem safety_true_parts {l : List Char} (h : check_url_path_safety l = true) :
    startsBad l = false ∧ endsBad l = false ∧ containsBad l = false := by
  unfold check_url_path_safety at h
  cases hS : startsBad l <;> cases hE : endsBad l <;> cases hC : containsBad l <;>
    rw [hS, hE, hC] at h <;> simp at h ⊢

theorem endsBad_parts {l : List Char} (h : endsBad l = false) :
    "/~".data.isSuffixOf l = false ∧ "/.".data.isSuffixOf l = false ∧
      "/..".data.isSuffixOf l = false ∧ " ".data.isSuffixOf l = false := by
  unfold endsBad at h
  simp only [Bool.or_eq_false_iff] at h
  exact ⟨h.1.1.1, h.1.1.2, h.1.2, h.2⟩

theorem containsBad_parts {l : List Char} (h : containsBad l = false) :
    containsSub "/./".data l = false ∧ containsSub "/../".data l = false ∧
      containsSub "/~/".data l = false := by
  unfold containsBad at h
  simp only [Bool.or_eq_false_iff] at h
  exact ⟨h.1.1, h.1.2, h.2⟩

theorem hasSegment_eq_false {s seg : List Char} (hseg : seg ≠ [])
    (hh : seg.head? ≠ some '/')
    (hsfx : ('/' :: seg).isSuffixOf ('/' :: s) = false)
    (hsub : containsSub ('/' :: seg ++ ['/']) ('/' :: s) = false) :
    hasSegment ('/' :: s) seg = false := by
  have h1 : (('/' :: s) == seg) = false := by
    rw [beq_eq_false_iff_ne]
    intro he
    exact hh (by rw [← he]; rfl)
  have h2 : ((seg ++ ['/']).isPrefixOf ('/' :: s)) = false := by
    cases hx : (seg ++ ['/']).isPrefixOf ('/' :: s) with
    | false => rfl
    | true =>
      exfalso
      have hpfx := List.isPrefixOf_iff_prefix.mp hx
      cases seg with
      | nil => exact hseg rfl
      | cons c u =>
        obtain ⟨r, hr⟩ := hpfx
        have hc : some c = some '/' := by
          have := congrArg List.head? hr
          simpa using this
        exact hh (by simpa using hc)
  unfold hasSegment
  rw [h1, h2, hsfx, hsub]
  rfl

/-- C2 (amended): for every GET request that the safety filter does not
reject, the normalized Request Path used for routing and filesystem joins
has no `..`, `.` or `~` as an isolated path segment, does not begin with a
doubled slash, begins with `/` (so no leading whitespace), and does not end
with a space.  (The original claim also forbade inner doubled slashes and
all trailing whitespace; the counterexample shows inner `//` survives, and
a percent-encoded TAB would likewise survive at the end.) -/
theorem C2_request_path_invariant (p : List Char)
    (hsafe : check_url_path_safety ('/' :: url_path_strip p) = true) :
    hasSegment ('/' :: url_path_strip p) "..".data = false ∧
      hasSegment ('/' :: url_path_strip p) ".".data = false ∧
      hasSegment ('/' :: url_path_strip p) "~".data = false ∧
      "//".data.isPrefixOf ('/' :: url_path_strip p) = false ∧
      ('/' :: url_path_strip p).head? = some '/' ∧
      " ".data.isSuffixOf ('/' :: url_path_strip p) = false := by
  obtain ⟨hS, hE, hC⟩ := safety_true_parts hsafe
  obtain ⟨hE1, hE2, hE3, hE4⟩ := endsBad_parts hE
  obtain ⟨hC1, hC2, hC3⟩ := containsBad_parts hC
  refine ⟨?_, ?_, ?_, doubleslash_not_pfx p, rfl, space_not_sfx p⟩
  · exact hasSegment_eq_false (by decide) (by decide)
      (by rw [show ('/' :: "..".data) = "/..".data by rfl]; exact hE3)
      (by rw [show ('/' :: "..".data ++ ['/']) = "/../".data by rfl]; exact hC2)
  · exact hasSegment_eq_false (by decide) (by decide)
      (by rw [show ('/' :: ".".data) = "/.".data by rfl]; exact hE2)
      (by rw [show ('/' :: ".".data ++ ['/']) = "/./".data by rfl]; exact hC1)
  · exact hasSegment_eq_false (by decide) (by decide)
      (by rw [show ('/' :: "~".data) = "/~".data by rfl]; exact hE1)
      (by rw [show ('/' :: "~".data ++ ['/']) = "/~/".data by rfl]; exact hC3)

/-- Witness for C2 (amended) at a concrete accepted request. -/
theorem C2_witness :
    hasSegment ('/' :: url_path_strip "/a/b".data) "..".data = false ∧
      hasSegment ('/' :: url_path_strip "/a/b".data) ".".data = false ∧
      hasSegment ('/' :: url_path_strip "/a/b".data) "~".data = false ∧
      "//".data.isPrefixOf ('/' :: url_path_strip "/a/b".data) = false ∧
      ('/' :: url_path_strip "/a/b".data).head? = some '/' ∧
      " ".data.isSuffixOf ('/' :: url_path_strip "/a/b".data) = false :=
  C2_request_path_invariant "/a/b".data (by decide)

/-- C2 counterexample: the decoded request path "/a//b" passes the safety
filter, yet the normalized Request Path it is routed with contains a
doubled slash — contradicting "never contains doubled slashes anywhere" —
and that doubled slash flows into the filesystem join.  Likewise the
decoded path "/a" followed by a TAB (percent-encoded as %09 in the request
line) passes the filter while the normalized path keeps the trailing
whitespace character — contradicting "never has trailing whitespace". -/
theorem C2_counterexample :
    check_url_path_safety ('/' :: url_path_strip "/a//b".data) = true ∧
      containsSub "//".data ('/' :: url_path_strip "/a//b".data) = true ∧
      (do_GET "/srv".data fsAllDir hdrNone "/a//b".data).resp =
        Resp.dirListing "/srv/a//b".data "/a//b".data ∧
      check_url_path_safety ('/' :: url_path_strip "/a\t".data) = true ∧
      ('/' :: url_path_strip "/a\t".data).getLast? = some '\t' ∧
      '\t'.isWhitespace = true :=
  ⟨by decide, by decide, by decide, by decide, by decide, by decide⟩

/-! ### C6: idempotence of the Path Safety Filter -/

/-- C6 counterexample: `validate` is not idempotent, because a second
application percent-decodes the output again.  Raw `/a%2520b` validates to
`/a%20b`, whose own validation yields the different path `/a b`; worse, raw
`/x%252F..%252Fy` is accepted (output `/x%2F..%2Fy`) while validating that
output decodes it to `/x/../y` and rejects it — the accept decision flips. -/
theorem C6_counterexample :
    validate "/a%2520b".data = some "/a%20b".data ∧
      validate "/a%20b".data = some "/a b".data ∧
      "/a%20b".data ≠ "/a b".data ∧
      validate "/x%252F..%252Fy".data = some "/x%2F..%2Fy".data ∧
      validate "/x%2F..%2Fy".data = none :=
  ⟨by decide, by decide, by decide, by decide, by decide⟩

/-- C6 (amended): `validate` is idempotent on outputs whose percent-decoding
is trivial — whenever `validate p` accepts and returns a normalized path
containing no decodable `%XX` escape, applying `validate` to that output
accepts again and returns the very same path (and a rejected input has no
output to re-validate).  In general idempotence fails, because the second
application decodes the output a second time. -/
theorem C6_validate_idem (p q : List Char) (h : validate p = some q)
    (hq : unquote q = q) : validate q = some q := by
  unfold validate at h
  by_cases hs : check_url_path_safety ('/' :: url_path_strip (unquote p)) = true
  · rw [if_pos hs] at h
    have hqe : q = '/' :: url_path_strip (unquote p) := (Option.some_inj.mp h).symm
    subst hqe
    unfold validate
    rw [hq, strip_of_cons_strip, if_pos hs]
  · rw [if_neg hs] at h
    cases h

/-- Witness for C6 (amended) at a concrete escape-free input. -/
theorem C6_witness :
    validate " //foo/bar// ".data = some "/foo/bar".data ∧
      validate "/foo/bar".data = some "/foo/bar".data :=
  ⟨by decide,
    C6_validate_idem " //foo/bar// ".data "/foo/bar".data (by decide) (by decide)⟩

/-! ### C8: silent fall-through for missing non-cache targets -/

/-- C8: for every non-cache GET request whose validated path names neither
an existing directory nor an existing file under the served root, the
handler sends nothing at all — `Resp.noResponse`, so no status line,
headers or body — and the filesystem is left unchanged. -/
theorem C8_silent_fallthrough (root : List Char) (fs : FS) (h : Headers) (p : List Char)
    (hsafe : check_url_path_safety ('/' :: url_path_strip p) = true)
    (hnc : cacheMark.isPrefixOf ('/' :: url_path_strip p) = false)
    (hdir : fs.isDir (pjoin root (url_path_strip p)) = false)
    (hex : fs.pathExists (pjoin root (url_path_strip p)) = false) :
    (do_GET root fs h p).resp = Resp.noResponse ∧ (do_GET root fs h p).fs = fs ∧
      (do_GET root fs h p).eff.created = [] := by
  simp [do_GET, hsafe, hnc, hdir, hex]

/-- Witness for C8 at a concrete missing file. -/
theorem C8_witness :
    (do_GET "/srv".data fsEmpty hdrNone "/missing.txt".data).resp = Resp.noResponse ∧
      (do_GET "/srv".data fsEmpty hdrNone "/missing.txt".data).fs = fsEmpty ∧
      (do_GET "/srv".data fsEmpty hdrNone "/missing.txt".data).eff.created = [] :=
  C8_silent_fallthrough "/srv".data fsEmpty hdrNone "/missing.txt".data
    (by decide) (by decide) rfl rfl

/-! ### C10: a naive If-Modified-Since never yields 304 -/

/-- C10: whenever the If-Modified-Since header parses to a timezone-naive
datetime, `_do_file` never answers 304: the naive-normalization line
evaluates `ts.tzinfo.replace` on `None`, which raises; the exception is
swallowed by the surrounding handler, and an openable file is served as a
full 200 response with the complete body. -/
theorem C10_naive_ims_never_304 (fs : FS) (path : List Char) (t : Int) (inm : Bool) :
    do_file fs ⟨some (IMSVal.naive t), inm⟩ path ≠ FileResp.notModified ∧
      (fs.canOpen path = true →
        do_file fs ⟨some (IMSVal.naive t), inm⟩ path =
          FileResp.ok path (sentCType (guess_type path)) (fs.sizeBytes path)) := by
  cases hop : fs.canOpen path with
  | false => simp [do_file, send304, hop]
  | true => cases inm <;> simp [do_file, send304, hop]

/-- Witness for C10 at a concrete file. -/
theorem C10_witness :
    do_file fsOpenAll ⟨some (IMSVal.naive 0), false⟩ "/a.zzz".data ≠ FileResp.notModified ∧
      do_file fsOpenAll ⟨some (IMSVal.naive 0), false⟩ "/a.zzz".data =
        FileResp.ok "/a.zzz".data (sentCType (guess_type "/a.zzz".data))
          (fsOpenAll.sizeBytes "/a.zzz".data) :=
  ⟨(C10_naive_ims_never_304 fsOpenAll "/a.zzz".data 0 false).1,
    (C10_naive_ims_never_304 fsOpenAll "/a.zzz".data 0 false).2 rfl⟩

/-! ### C4: conditional GET at second granularity -/

/-- C4 (code behavior at the failing input): the file's mtime is 10.5 s and
If-Modified-Since parses to second 10 UTC — the same second, so a
second-granularity comparison (the claim) requires 304 — yet `_do_file`
answers 200 with the full body, because the source discards the result of
`last_modified.replace(microsecond=0)` and compares at microsecond
precision. -/
theorem C4_code_behavior :
    do_file fsC4 ⟨some (IMSVal.utc 10000000), false⟩ "/srv/a.txt".data =
      FileResp.ok "/srv/a.txt".data "text/plain".data 3 := by
  decide

/-! ### C7: Content-Type for unrecognized extensions -/

/-- C7 counterexample: a file with the unregistered extension `.zzz` opens
successfully and, with no conditional headers, the 200 response's
Content-Type value is the literal text `None` (Python formats the `None`
returned by `guess_type` with `%s`), which is not a generic binary type
such as application/octet-stream. -/
theorem C7_counterexample :
    do_file fsOpenAll hdrNone "/srv/notes.zzz".data =
      FileResp.ok "/srv/notes.zzz".data "None".data 7 ∧
      "None".data ≠ "application/octet-stream".data :=
  ⟨by decide, by decide⟩

/-- C7 (amended): for every file that opens successfully and whose
extension MIME-type guessing does not recognize, any 200 response carries
the literal Content-Type text `None` — not a generic binary type. -/
theorem C7_unrecognized_ctype_none (fs : FS) (h : Headers) (path : List Char)
    (hg : guess_type path = none) (hopen : fs.canOpen path = true) :
    do_file fs h path = FileResp.notModified ∨
      do_file fs h path = FileResp.ok path "None".data (fs.sizeBytes path) := by
  unfold do_file
  rw [if_pos hopen, hg]
  by_cases hsend : send304 fs h path = true
  · rw [if_pos hsend]
    exact Or.inl rfl
  · rw [if_neg hsend]
    exact Or.inr rfl

/-- Witness for C7 (amended) at a concrete file. -/
theorem C7_witness :
    do_file fsOpenAll hdrNone "/a/b.weird".data = FileResp.notModified ∨
      do_file fsOpenAll hdrNone "/a/b.weird".data =
        FileResp.ok "/a/b.weird".data "None".data 7 :=
  C7_unrecognized_ctype_none fsOpenAll hdrNone "/a/b.weird".data (by decide) rfl

/-! ### C5: cache-prefixed request for a non-image -/

/-- C5 counterexample: a cache-prefixed request for the non-image `a.txt`
is answered 200 — not 404 — because a thumbnail `a.jpg` generated for a
different source sharing the same stem already exists at the derived cache
path, and the existence check runs before the image-extension check. -/
theorem C5_counterexample :
    (do_GET "/srv".data fsC5 hdrNone "/__httpim_cache__/a.txt".data).resp =
      Resp.file (FileResp.ok "/srv/__httpim_cache__/a.jpg".data "image/jpeg".data 9) := by
  decide

/-- C5 (amended): for every cache-prefixed GET request whose source target
is not an existing directory, whose derived cache file does not already
exist, and whose source filename's extension is not in the recognized
image-extension set, the server responds 404, creates no file under the
Cache Root and leaves the filesystem unchanged.  (The original claim
omitted the first two qualifications; the counterexample shows an existing
same-stem thumbnail is served with 200 instead.) -/
theorem C5_nonimage_cache_404 (root : List Char) (fs : FS) (h : Headers)
    (p rel : List Char)
    (hrel : url_path_strip p = "__httpim_cache__/".data ++ rel)
    (hsafe : check_url_path_safety ('/' :: url_path_strip p) = true)
    (hdir : fs.isDir (pjoin root rel) = false)
    (hnc : fs.pathExists (jpgCachePath (pjoin (pjoin root "__httpim_cache__".data) rel)) =
      false)
    (hth : file_can_thumb (pjoin root rel) = false) :
    (do_GET root fs h p).resp = Resp.notFound ∧ (do_GET root fs h p).fs = fs ∧
      (do_GET root fs h p).eff.created = [] := by
  have hpath : ('/' :: url_path_strip p) = cacheMark ++ rel := by rw [hrel]; rfl
  have hpfx : cacheMark.isPrefixOf ('/' :: url_path_strip p) = true := by
    rw [hpath]
    exact List.isPrefixOf_iff_prefix.mpr ⟨rel, rfl⟩
  have hdrop : ('/' :: url_path_strip p).drop cacheMark.length = rel := by
    rw [hpath]
    exact List.drop_left _ _
  simp [do_GET, hsafe, hpfx, hdrop, hdir, hnc, hth]

/-- Witness for C5 (amended) at a concrete non-image cache request. -/
theorem C5_witness :
    (do_GET "/srv".data fsEmpty hdrNone "/__httpim_cache__/docs/readme.txt".data).resp =
      Resp.notFound ∧
      (do_GET "/srv".data fsEmpty hdrNone "/__httpim_cache__/docs/readme.txt".data).fs =
        fsEmpty ∧
      (do_GET "/srv".data fsEmpty hdrNone
          "/__httpim_cache__/docs/readme.txt".data).eff.created = [] :=
  C5_nonimage_cache_404 "/srv".data fsEmpty hdrNone "/__httpim_cache__/docs/readme.txt".data
    "docs/readme.txt".data (by decide) (by decide) rfl rfl (by decide)

/-! ### splitext and MIME facts for derived cache paths -/

theorem takeWhile_append_all {α : Type} {q : α → Bool} {u : List α} (v : List α)
    (h : ∀ c ∈ u, q c = true) : (u ++ v).takeWhile q = u ++ v.takeWhile q := by
  induction u with
  | nil => simp
  | cons c t ih =>
    rw [List.cons_append, List.takeWhile_cons, if_pos (h c (List.mem_cons_self c t)),
      ih fun x hx => h x (List.mem_cons_of_mem c hx), List.cons_append]

theorem takeWhile_eq_self_of_all {α : Type} {q : α → Bool} {u : List α}
    (h : ∀ c ∈ u, q c = true) : u.takeWhile q = u := by
  have := takeWhile_append_all [] h
  simpa using this

theorem dropWhile_eq_nil_of_all {α : Type} {q : α → Bool} {u : List α}
    (h : ∀ c ∈ u, q c = true) : u.dropWhile q = [] := by
  induction u with
  | nil => rfl
  | cons c t ih =>
    rw [List.dropWhile_cons, if_pos (h c (List.mem_cons_self c t))]
    exact ih fun x hx => h x (List.mem_cons_of_mem c hx)

theorem takeWhile_append_stop {α : Type} {q : α → Bool} {u : List α} (v : List α)
    (h : u.dropWhile q ≠ []) : (u ++ v).takeWhile q = u.takeWhile q := by
  induction u with
  | nil => exact absurd rfl h
  | cons c t ih =>
    by_cases hc : q c = true
    · rw [List.dropWhile_cons, if_pos hc] at h
      rw [List.cons_append, List.takeWhile_cons, List.takeWhile_cons, if_pos hc, if_pos hc,
        ih h]
    · rw [List.cons_append, List.takeWhile_cons, List.takeWhile_cons, if_neg hc, if_neg hc]

theorem dropWhile_ne_nil_of_mem {α : Type} {q : α → Bool} {u : List α} {x : α} :
    x ∈ u → q x = false → u.dropWhile q ≠ [] := by
  induction u with
  | nil => intro hx; cases hx
  | cons c t ih =>
    intro hx hq h
    rw [List.dropWhile_cons] at h
    by_cases hc : q c = true
    · rw [if_pos hc] at h
      rcases List.mem_cons.mp hx with rfl | hxt
      · rw [hq] at hc; simp at hc
      · exact ih hxt hq h
    · rw [if_neg hc] at h
      cases h

theorem notSlash_of_not_mem {u : List Char} (h : '/' ∉ u) :
    ∀ c ∈ u, notSlash c = true := by
  intro c hc
  simp only [notSlash, decide_eq_true_eq, ne_eq]
  intro hcc
  rw [hcc] at hc
  exact h hc

theorem notDot_of_not_mem {u : List Char} (h : '.' ∉ u) :
    ∀ c ∈ u, notDot c = true := by
  intro c hc
  simp only [notDot, decide_eq_true_eq, ne_eq]
  intro hcc
  rw [hcc] at hc
  exact h hc

theorem lastComponent_append_noSlash {x : List Char} (a : List Char) (hx : '/' ∉ x) :
    lastComponent (a ++ x) = lastComponent a ++ x := by
  unfold lastComponent
  rw [List.reverse_append,
    takeWhile_append_all _ (notSlash_of_not_mem (by simpa using hx)),
    List.reverse_append, List.reverse_reverse]

theorem lastComponent_append_slash (a x : List Char) :
    lastComponent (a ++ '/' :: x) = lastComponent x := by
  have hrev : (a ++ '/' :: x).reverse = x.reverse ++ (['/'] ++ a.reverse) := by simp
  have hstop : List.takeWhile notSlash (['/'] ++ a.reverse) = [] := by
    rw [List.singleton_append, List.takeWhile_cons, if_neg (by simp [notSlash])]
  have hkey : (a ++ '/' :: x).reverse.takeWhile notSlash = x.reverse.takeWhile notSlash := by
    rw [hrev]
    rcases eq_or_ne (x.reverse.dropWhile notSlash) [] with hx | hx
    · have hall : ∀ c ∈ x.reverse, notSlash c = true := by
        intro c hc
        by_contra hcc
        exact dropWhile_ne_nil_of_mem hc (by simpa using hcc) hx
      rw [takeWhile_append_all _ hall, hstop, List.append_nil,
        takeWhile_eq_self_of_all hall]
    · rw [takeWhile_append_stop _ hx]
  unfold lastComponent
  rw [hkey]

theorem lastComponent_noSlash {x : List Char} (hx : '/' ∉ x) : lastComponent x = x := by
  unfold lastComponent
  rw [takeWhile_eq_self_of_all (notSlash_of_not_mem (by simpa using hx)),
    List.reverse_reverse]

theorem dirPart_append_noSlash {x : List Char} (a : List Char) (hx : '/' ∉ x) :
    dirPart (a ++ x) = dirPart a := by
  unfold dirPart
  rw [List.reverse_append,
    dropWhile_append_of_eq _ (dropWhile_eq_nil_of_all (notSlash_of_not_mem
      (by simpa using hx)))]

theorem dirPart_lastComponent (l : List Char) : dirPart l ++ lastComponent l = l := by
  unfold dirPart lastComponent
  rw [← List.reverse_append, List.takeWhile_append_dropWhile, List.reverse_reverse]

theorem lastComponent_pjoin (a rel : List Char) :
    lastComponent (pjoin a rel) = lastComponent rel := by
  unfold pjoin
  by_cases hb : rel.head? = some '/'
  · rw [if_pos hb]
  · rw [if_neg hb]
    by_cases ha : a.getLast? = some '/'
    · rw [if_pos ha, ← List.dropLast_append_getLast? '/' ha, List.append_assoc,
        List.singleton_append]
      exact lastComponent_append_slash _ _
    · rw [if_neg ha]
      exact lastComponent_append_slash _ _

theorem mem_lastComponent_notSlash {l : List Char} {x : Char}
    (hx : x ∈ lastComponent l) : x ≠ '/' := by
  have hx' : x ∈ l.reverse.takeWhile notSlash := by
    simpa [lastComponent] using hx
  have := List.mem_takeWhile_imp hx'
  simpa [notSlash] using this

theorem reverse_head_nondot {q e er : List Char} {lam : Char}
    (he : e.reverse = lam :: er) (hlam1 : lam ≠ '.') (hlam2 : lam ≠ '/')
    (h : e.isSuffixOf (q.map Char.toLower) = true) :
    ∃ c w, q.reverse = c :: w ∧ c ≠ '.' ∧ c ≠ '/' := by
  have h' : e.reverse.isPrefixOf (q.map Char.toLower).reverse = true := h
  rw [he, ← List.map_reverse] at h'
  cases hq : q.reverse with
  | nil =>
    rw [hq] at h'
    simp [List.isPrefixOf] at h'
  | cons c w =>
    rw [hq] at h'
    simp only [List.map_cons, List.isPrefixOf, Bool.and_eq_true, beq_iff_eq] at h'
    have hc : lam = Char.toLower c := h'.1
    refine ⟨c, w, rfl, ?_, ?_⟩
    · intro hcc
      rw [hcc] at hc
      exact hlam1 (by rw [hc]; decide)
    · intro hcc
      rw [hcc] at hc
      exact hlam2 (by rw [hc]; decide)

theorem can_thumb_reverse_head {q : List Char} (h : file_can_thumb q = true) :
    ∃ c w, q.reverse = c :: w ∧ c ≠ '.' ∧ c ≠ '/' := by
  unfold file_can_thumb at h
  simp only [Bool.or_eq_true] at h
  rcases h with ((((h | h) | h) | h) | h) | h
  · exact reverse_head_nondot (show ".png".data.reverse = 'g' :: ['n', 'p', '.'] by decide)
      (by decide) (by decide) h
  · exact reverse_head_nondot (show ".jpg".data.reverse = 'g' :: ['p', 'j', '.'] by decide)
      (by decide) (by decide) h
  · exact reverse_head_nondot
      (show ".jpeg".data.reverse = 'g' :: ['e', 'p', 'j', '.'] by decide)
      (by decide) (by decide) h
  · exact reverse_head_nondot
      (show ".tiff".data.reverse = 'f' :: ['f', 'i', 't', '.'] by decide)
      (by decide) (by decide) h
  · exact reverse_head_nondot (show ".bmp".data.reverse = 'p' :: ['m', 'b', '.'] by decide)
      (by decide) (by decide) h
  · exact reverse_head_nondot (show ".gif".data.reverse = 'f' :: ['i', 'g', '.'] by decide)
      (by decide) (by decide) h

theorem lastComponent_has_nondot {q : List Char} (h : file_can_thumb q = true) :
    ∃ c ∈ lastComponent q, c ≠ '.' := by
  obtain ⟨c, w, hq, hdot, hslash⟩ := can_thumb_reverse_head h
  refine ⟨c, ?_, hdot⟩
  unfold lastComponent
  rw [hq, List.takeWhile_cons, if_pos (by simp [notSlash]; exact hslash)]
  simp

/-- `os.path.splitext` splits a freshly appended dot-extension back off,
provided the last component of the stem has a non-dot character and the
extension body contains no dot and no slash. -/
theorem splitext_append_ext {X w : List Char}
    (hX : ∃ c ∈ lastComponent X, c ≠ '.') (hwd : '.' ∉ w) (hws : '/' ∉ w) :
    splitext (X ++ '.' :: w) = (X, '.' :: w) := by
  have hnoSlash : '/' ∉ '.' :: w := by
    intro hm
    rcases List.mem_cons.mp hm with hm | hm
    · exact absurd hm (by decide)
    · exact hws hm
  have hbase : lastComponent (X ++ '.' :: w) = lastComponent X ++ '.' :: w :=
    lastComponent_append_noSlash X hnoSlash
  obtain ⟨c0, hc0B, hc0⟩ := hX
  have hrest_ne : (lastComponent X).dropWhile isDot ≠ [] :=
    dropWhile_ne_nil_of_mem hc0B (by simp [isDot]; exact hc0)
  obtain ⟨c, t, hct⟩ : ∃ c t, (lastComponent X).dropWhile isDot = c :: t := by
    cases hcase : (lastComponent X).dropWhile isDot with
    | nil => exact absurd hcase hrest_ne
    | cons c t => exact ⟨c, t, rfl⟩
  have hc : isDot c = false := dropWhile_head_false isDot (lastComponent X) hct
  set ld := (lastComponent X).takeWhile isDot with hldDef
  have hBsplit : lastComponent X = ld ++ c :: t := by
    have h0 := List.takeWhile_append_dropWhile isDot (lastComponent X)
    rw [hct] at h0
    exact h0.symm
  have hldots : ∀ x ∈ ld, isDot x = true := fun x hx => List.mem_takeWhile_imp hx
  have hwAll : ∀ x ∈ w.reverse, notDot x = true := notDot_of_not_mem (by simpa using hwd)
  have hbase2 : lastComponent (X ++ '.' :: w) = ld ++ c :: (t ++ '.' :: w) := by
    rw [hbase, hBsplit]
    simp
  have hrest2 : (lastComponent (X ++ '.' :: w)).dropWhile isDot = c :: (t ++ '.' :: w) := by
    rw [hbase2, dropWhile_append_of_eq _ (dropWhile_eq_nil_of_all hldots),
      dropWhile_eq_self_of_head hc]
  have htake2 : (lastComponent (X ++ '.' :: w)).takeWhile isDot = ld := by
    rw [hbase2, takeWhile_append_all _ hldots, List.takeWhile_cons, if_neg (by simp [hc]),
      List.append_nil]
  have hany : ((lastComponent (X ++ '.' :: w)).dropWhile isDot).any isDot = true := by
    rw [hrest2]
    refine List.any_eq_true.mpr ⟨'.', by simp, by decide⟩
  have hrev : ((lastComponent (X ++ '.' :: w)).dropWhile isDot).reverse =
      w.reverse ++ '.' :: (t.reverse ++ [c]) := by
    rw [hrest2]
    simp
  have hext : ((lastComponent (X ++ '.' :: w)).dropWhile isDot).reverse.takeWhile notDot =
      w.reverse := by
    rw [hrev, takeWhile_append_all _ hwAll, List.takeWhile_cons, if_neg (by decide),
      List.append_nil]
  have hdrw : ((lastComponent (X ++ '.' :: w)).dropWhile isDot).reverse.dropWhile notDot =
      '.' :: (t.reverse ++ [c]) := by
    rw [hrev, dropWhile_append_of_eq _ (dropWhile_eq_nil_of_all hwAll),
      dropWhile_eq_self_of_head (by decide)]
  unfold splitext
  rw [if_pos hany, htake2, hext, hdrw, dirPart_append_noSlash X hnoSlash,
    show ('.' :: (t.reverse ++ [c])).tail = t.reverse ++ [c] from rfl,
    show (t.reverse ++ [c]).reverse = c :: t by simp,
    List.reverse_reverse, List.append_assoc, ← hBsplit, dirPart_lastComponent]

theorem mem_of_mem_takeWhile {α : Type} {q : α → Bool} {u : List α} {x : α}
    (h : x ∈ u.takeWhile q) : x ∈ u := by
  have h0 := List.takeWhile_append_dropWhile q u
  rw [← h0]
  exact List.mem_append.mpr (Or.inl h)

theorem mem_of_mem_dropWhile {α : Type} {q : α → Bool} {u : List α} {x : α}
    (h : x ∈ u.dropWhile q) : x ∈ u := by
  have h0 := List.takeWhile_append_dropWhile q u
  rw [← h0]
  exact List.mem_append.mpr (Or.inr h)

/-- The stem `splitext` returns keeps a non-dot character in its last
component whenever the input's last component had one. -/
theorem stem_nondot {l : List Char} (hl : ∃ c ∈ lastComponent l, c ≠ '.') :
    ∃ c ∈ lastComponent (splitext l).1, c ≠ '.' := by
  unfold splitext
  by_cases hA : ((lastComponent l).dropWhile isDot).any isDot = true
  · rw [if_pos hA]
    obtain ⟨c0, hc0B, hc0⟩ := hl
    have hrest_ne : (lastComponent l).dropWhile isDot ≠ [] :=
      dropWhile_ne_nil_of_mem hc0B (by simp [isDot]; exact hc0)
    obtain ⟨c, t, hct⟩ : ∃ c t, (lastComponent l).dropWhile isDot = c :: t := by
      cases hcase : (lastComponent l).dropWhile isDot with
      | nil => exact absurd hcase hrest_ne
      | cons c t => exact ⟨c, t, rfl⟩
    have hc : isDot c = false := dropWhile_head_false isDot (lastComponent l) hct
    obtain ⟨x, hx, hxd⟩ := List.any_eq_true.mp hA
    have hxdot : x = '.' := by simpa [isDot] using hxd
    subst hxdot
    rw [hct] at hx
    have hdott : '.' ∈ t := by
      rcases List.mem_cons.mp hx with h1 | h1
      · rw [← h1] at hc
        simp [isDot] at hc
      · exact h1
    have hne2 : t.reverse.dropWhile notDot ≠ [] :=
      dropWhile_ne_nil_of_mem (by simpa using hdott) (by decide)
    obtain ⟨d, z, hdz⟩ : ∃ d z, t.reverse.dropWhile notDot = d :: z := by
      cases hcase : t.reverse.dropWhile notDot with
      | nil => exact absurd hcase hne2
      | cons d z => exact ⟨d, z, rfl⟩
    have hd : d = '.' := by
      have := dropWhile_head_false notDot t.reverse hdz
      simpa [notDot] using this
    subst hd
    have hrevrest : ((lastComponent l).dropWhile isDot).reverse.dropWhile notDot =
        '.' :: (z ++ [c]) := by
      rw [hct, show (c :: t).reverse = t.reverse ++ [c] by simp,
        dropWhile_append_of_ne _ hne2, hdz, List.cons_append]
    rw [hrevrest, show ('.' :: (z ++ [c])).tail = z ++ [c] from rfl,
      show (z ++ [c]).reverse = c :: z.reverse by simp]
    have hsubB : ∀ y ∈ (lastComponent l).takeWhile isDot ++ c :: z.reverse,
        y ∈ lastComponent l := by
      intro y hy
      rcases List.mem_append.mp hy with hy | hy
      · exact mem_of_mem_takeWhile hy
      · rcases List.mem_cons.mp hy with h1 | hy
        · rw [h1]
          exact mem_of_mem_dropWhile
            (show c ∈ (lastComponent l).dropWhile isDot by
              rw [hct]; exact List.mem_cons_self _ _)
        · have hyz : y ∈ z := by simpa using hy
          have hy2 : y ∈ t.reverse.dropWhile notDot := by
            rw [hdz]
            exact List.mem_cons_of_mem _ hyz
          have hy3 : y ∈ t := by simpa using mem_of_mem_dropWhile hy2
          exact mem_of_mem_dropWhile
            (show y ∈ (lastComponent l).dropWhile isDot by
              rw [hct]; exact List.mem_cons_of_mem c hy3)
    have hM : '/' ∉ (lastComponent l).takeWhile isDot ++ c :: z.reverse := by
      intro hm
      exact mem_lastComponent_notSlash (hsubB '/' hm) rfl
    have hcmem : c ∈ (lastComponent l).takeWhile isDot ++ c :: z.reverse :=
      List.mem_append.mpr (Or.inr (List.mem_cons_self _ _))
    have hcnd : c ≠ '.' := by simpa [isDot] using hc
    rw [List.append_assoc]
    cases hdp : l.reverse.dropWhile notSlash with
    | nil =>
      have hdirnil : dirPart l = [] := by
        unfold dirPart
        rw [hdp]
        rfl
      rw [hdirnil, List.nil_append, lastComponent_noSlash hM]
      exact ⟨c, hcmem, hcnd⟩
    | cons d2 u2 =>
      have hd2 : d2 = '/' := by
        have := dropWhile_head_false notSlash l.reverse hdp
        simpa [notSlash] using this
      have hdir2 : dirPart l = u2.reverse ++ ['/'] := by
        unfold dirPart
        rw [hdp, hd2]
        simp
      rw [hdir2, List.append_assoc, List.singleton_append, lastComponent_append_slash,
        lastComponent_noSlash hM]
      exact ⟨c, hcmem, hcnd⟩
  · rw [if_neg hA]
    exact hl

theorem jpgCachePath_append_ext {X w : List Char}
    (hX : ∃ c ∈ lastComponent X, c ≠ '.') (hwd : '.' ∉ w) (hws : '/' ∉ w) :
    jpgCachePath (X ++ '.' :: w) = X ++ ".jpg".data := by
  unfold jpgCachePath
  rw [splitext_append_ext hX hwd hws]

theorem guess_type_stem_jpg {X : List Char} (hX : ∃ c ∈ lastComponent X, c ≠ '.') :
    guess_type (X ++ ".jpg".data) = some "image/jpeg".data := by
  rw [show (".jpg".data : List Char) = '.' :: "jpg".data from rfl]
  unfold guess_type
  rw [splitext_append_ext hX (by decide) (by decide)]
  rfl

/-- The Content-Type of any freshly derived cache path is image/jpeg, as
long as the addressed source can have a thumbnail at all. -/
theorem guess_type_jpgCachePath {root croot rel : List Char}
    (hth : file_can_thumb (pjoin root rel) = true) :
    guess_type (jpgCachePath (pjoin croot rel)) = some "image/jpeg".data := by
  have hnd : ∃ c ∈ lastComponent (pjoin croot rel), c ≠ '.' := by
    rw [lastComponent_pjoin]
    have h2 := lastComponent_has_nondot hth
    rwa [lastComponent_pjoin] at h2
  unfold jpgCachePath
  exact guess_type_stem_jpg (stem_nondot hnd)

/-- Routing facts shared by cache-prefixed requests. -/
theorem cache_req_facts {p rel : List Char}
    (hrel : url_path_strip p = "__httpim_cache__/".data ++ rel) :
    cacheMark.isPrefixOf ('/' :: url_path_strip p) = true ∧
      ('/' :: url_path_strip p).drop cacheMark.length = rel := by
  have hpath : ('/' :: url_path_strip p) = cacheMark ++ rel := by rw [hrel]; rfl
  constructor
  · rw [hpath]
    exact List.isPrefixOf_iff_prefix.mpr ⟨rel, rfl⟩
  · rw [hpath]
    exact List.drop_left _ _

/-! ### C9: the request-to-cache-path mapping is not injective -/

/-- C9: two cache-prefixed request paths that differ only in the final
extension of their last segment derive the same on-disk cache path (the
shared stem plus `.jpg` under the Cache Root); consequently a cache request
— for any name, image or not — whose derived cache file already exists is
answered by serving that existing thumbnail with a 200, performing no image
decoding and creating nothing. -/
theorem C9_cache_alias (root : List Char) (fs : FS) (h : Headers) :
    (∀ X w1 w2 : List Char,
        (∃ c ∈ lastComponent X, c ≠ '.') → '.' ∉ w1 → '/' ∉ w1 → '.' ∉ w2 → '/' ∉ w2 →
          jpgCachePath (X ++ '.' :: w1) = jpgCachePath (X ++ '.' :: w2)) ∧
      (∀ p rel : List Char,
        url_path_strip p = "__httpim_cache__/".data ++ rel →
        check_url_path_safety ('/' :: url_path_strip p) = true →
        fs.isDir (pjoin root rel) = false →
        fs.pathExists (jpgCachePath (pjoin (pjoin root "__httpim_cache__".data) rel)) =
          true →
        fs.canOpen (jpgCachePath (pjoin (pjoin root "__httpim_cache__".data) rel)) = true →
        h.ifModifiedSince = none →
          (do_GET root fs h p).resp =
            Resp.file (FileResp.ok
              (jpgCachePath (pjoin (pjoin root "__httpim_cache__".data) rel))
              (sentCType (guess_type
                (jpgCachePath (pjoin (pjoin root "__httpim_cache__".data) rel))))
              (fs.sizeBytes
                (jpgCachePath (pjoin (pjoin root "__httpim_cache__".data) rel)))) ∧
            (do_GET root fs h p).eff.decodedImages = [] ∧
            (do_GET root fs h p).eff.created = []) := by
  constructor
  · intro X w1 w2 hX h1d h1s h2d h2s
    rw [jpgCachePath_append_ext hX h1d h1s, jpgCachePath_append_ext hX h2d h2s]
  · intro p rel hrel hsafe hdir hex hopen hno
    obtain ⟨hpfx, hdrop⟩ := cache_req_facts hrel
    have hdf : do_file fs h
        (jpgCachePath (pjoin (pjoin root "__httpim_cache__".data) rel)) =
        FileResp.ok (jpgCachePath (pjoin (pjoin root "__httpim_cache__".data) rel))
          (sentCType (guess_type
            (jpgCachePath (pjoin (pjoin root "__httpim_cache__".data) rel))))
          (fs.sizeBytes (jpgCachePath (pjoin (pjoin root "__httpim_cache__".data) rel))) := by
      unfold do_file
      rw [if_pos hopen, if_neg (by simp [send304, hno])]
    have hget : do_GET root fs h p =
        ⟨Resp.file (do_file fs h
            (jpgCachePath (pjoin (pjoin root "__httpim_cache__".data) rel))), fs,
          ⟨[pjoin root rel,
            jpgCachePath (pjoin (pjoin root "__httpim_cache__".data) rel)], [], []⟩⟩ := by
      simp [do_GET, hsafe, hpfx, hdrop, hdir, hex]
    rw [hget, hdf]
    exact ⟨rfl, rfl, rfl⟩

/-- Witness for C9: `a.md` and `a.png` derive the same cache path, and the
`a.md` request (not an image) is served from the existing `a.jpg` thumbnail
with a 200. -/
theorem C9_witness :
    jpgCachePath ("/srv/__httpim_cache__/a".data ++ '.' :: "md".data) =
      jpgCachePath ("/srv/__httpim_cache__/a".data ++ '.' :: "png".data) ∧
      (do_GET "/srv".data fsC5 hdrNone "/__httpim_cache__/a.md".data).resp =
        Resp.file (FileResp.ok
          (jpgCachePath (pjoin (pjoin "/srv".data "__httpim_cache__".data) "a.md".data))
          (sentCType (guess_type
            (jpgCachePath (pjoin (pjoin "/srv".data "__httpim_cache__".data) "a.md".data))))
          (fsC5.sizeBytes
            (jpgCachePath (pjoin (pjoin "/srv".data "__httpim_cache__".data) "a.md".data)))) ∧
      (do_GET "/srv".data fsC5 hdrNone "/__httpim_cache__/a.md".data).eff.decodedImages =
        [] ∧
      (do_GET "/srv".data fsC5 hdrNone "/__httpim_cache__/a.md".data).eff.created = [] :=
  ⟨(C9_cache_alias "/srv".data fsC5 hdrNone).1 "/srv/__httpim_cache__/a".data
      "md".data "png".data (by decide) (by decide) (by decide) (by decide) (by decide),
    (C9_cache_alias "/srv".data fsC5 hdrNone).2 "/__httpim_cache__/a.md".data "a.md".data
      (by decide) (by decide) rfl (by decide) (by decide) rfl⟩

/-! ### C3: create the thumbnail once, then serve it from the cache -/

/-- C3 counterexample: the request `/__httpim_cache__//x.png` (only a
leading `//` is rejected, so it passes the safety filter) addresses the
source `/x.png`: `os.path.join` discards both roots for the absolute
remainder `/x.png`, and the thumbnail is created at `/x.jpg` — at the
filesystem root, not at the mirrored path under the Cache Root that the
claim promises. -/
theorem C3_counterexample :
    (do_GET "/srv".data fsC3b hdrNone "/__httpim_cache__//x.png".data).eff.created =
      ["/x.jpg".data] ∧
      "/srv/__httpim_cache__/".data.isPrefixOf "/x.jpg".data = false ∧
      "/srv".data.isPrefixOf "/x.jpg".data = false :=
  ⟨by decide, by decide, by decide⟩

/-- For a remainder that does not begin with a slash, the join under the
Cache Root is the genuine mirrored path: nothing is discarded. -/
theorem pjoin_cacheRoot_rel {root rel : List Char} (hhd : rel.head? ≠ some '/') :
    pjoin (pjoin root "__httpim_cache__".data) rel =
      pjoin root "__httpim_cache__".data ++ '/' :: rel := by
  have hlast : (pjoin root "__httpim_cache__".data).getLast? = some '_' := by
    unfold pjoin
    rw [if_neg (by decide)]
    by_cases hr : root.getLast? = some '/'
    · rw [if_pos hr, List.getLast?_append_of_ne_nil root
        (show ("__httpim_cache__".data : List Char) ≠ [] by decide)]
      decide
    · rw [if_neg hr, List.getLast?_append_of_ne_nil root
        (show ('/' :: "__httpim_cache__".data : List Char) ≠ [] by decide)]
      decide
  show (if rel.head? = some '/' then rel
    else if (pjoin root "__httpim_cache__".data).getLast? = some '/' then
      pjoin root "__httpim_cache__".data ++ rel
    else pjoin root "__httpim_cache__".data ++ '/' :: rel) =
    pjoin root "__httpim_cache__".data ++ '/' :: rel
  rw [if_neg hhd, if_neg (by rw [hlast]; decide)]

/-- C3 (amended): for a cache-prefixed GET whose remainder after the cache
prefix does not begin with a slash, naming a decodable source image with no
existing cache entry, the first request creates the JPEG at the mirrored
cache path under the Cache Root (source extension replaced by `.jpg`, the
final conjunct exhibiting the mirror shape) and answers 200 with
Content-Type image/jpeg; an identical second request is answered 200 from
the now-existing cache file with no image decoding and no file creation.
(The original claim omitted the slash qualification: for an absolute
remainder `os.path.join` discards the roots and the thumbnail lands outside
the Cache Root, see the counterexample.) -/
theorem C3_cache_create_then_serve (root : List Char) (fs : FS) (h : Headers)
    (p rel : List Char)
    (hrel : url_path_strip p = "__httpim_cache__/".data ++ rel)
    (hhd : rel.head? ≠ some '/')
    (hsafe : check_url_path_safety ('/' :: url_path_strip p) = true)
    (hdir : fs.isDir (pjoin root rel) = false)
    (hnc : fs.pathExists (jpgCachePath (pjoin (pjoin root "__httpim_cache__".data) rel)) =
      false)
    (hth : file_can_thumb (pjoin root rel) = true)
    (hdec : fs.decodable (pjoin root rel) = true)
    (hno : h.ifModifiedSince = none) :
    (do_GET root fs h p).resp =
        Resp.file (FileResp.ok
          (jpgCachePath (pjoin (pjoin root "__httpim_cache__".data) rel))
          "image/jpeg".data
          (fs.sizeBytes (jpgCachePath (pjoin (pjoin root "__httpim_cache__".data) rel)))) ∧
      (do_GET root fs h p).eff.created =
        [jpgCachePath (pjoin (pjoin root "__httpim_cache__".data) rel)] ∧
      (do_GET root fs h p).fs.pathExists
        (jpgCachePath (pjoin (pjoin root "__httpim_cache__".data) rel)) = true ∧
      (do_GET root ((do_GET root fs h p).fs) h p).resp =
        Resp.file (FileResp.ok
          (jpgCachePath (pjoin (pjoin root "__httpim_cache__".data) rel))
          "image/jpeg".data
          (fs.sizeBytes (jpgCachePath (pjoin (pjoin root "__httpim_cache__".data) rel)))) ∧
      (do_GET root ((do_GET root fs h p).fs) h p).eff.decodedImages = [] ∧
      (do_GET root ((do_GET root fs h p).fs) h p).eff.created = [] ∧
      pjoin (pjoin root "__httpim_cache__".data) rel =
        pjoin root "__httpim_cache__".data ++ '/' :: rel := by
  obtain ⟨hpfx, hdrop⟩ := cache_req_facts hrel
  have hguess : guess_type (jpgCachePath (pjoin (pjoin root "__httpim_cache__".data) rel)) =
      some "image/jpeg".data := guess_type_jpgCachePath hth
  have hopen2 : (saveThumb fs
      (jpgCachePath (pjoin (pjoin root "__httpim_cache__".data) rel))).canOpen
      (jpgCachePath (pjoin (pjoin root "__httpim_cache__".data) rel)) = true := by
    simp [saveThumb]
  have hdf : do_file (saveThumb fs
        (jpgCachePath (pjoin (pjoin root "__httpim_cache__".data) rel))) h
        (jpgCachePath (pjoin (pjoin root "__httpim_cache__".data) rel)) =
      FileResp.ok (jpgCachePath (pjoin (pjoin root "__httpim_cache__".data) rel))
        "image/jpeg".data
        (fs.sizeBytes (jpgCachePath (pjoin (pjoin root "__httpim_cache__".data) rel))) := by
    unfold do_file
    rw [if_pos hopen2, if_neg (by simp [send304, hno]), hguess]
    rfl
  have hfirst : do_GET root fs h p =
      ⟨Resp.file (do_file (saveThumb fs
          (jpgCachePath (pjoin (pjoin root "__httpim_cache__".data) rel))) h
          (jpgCachePath (pjoin (pjoin root "__httpim_cache__".data) rel))),
        saveThumb fs (jpgCachePath (pjoin (pjoin root "__httpim_cache__".data) rel)),
        ⟨[pjoin root rel, jpgCachePath (pjoin (pjoin root "__httpim_cache__".data) rel)],
          [jpgCachePath (pjoin (pjoin root "__httpim_cache__".data) rel)],
          [pjoin root rel]⟩⟩ := by
    simp [do_GET, hsafe, hpfx, hdrop, hdir, hnc, hth, hdec]
  have hex2 : (saveThumb fs
      (jpgCachePath (pjoin (pjoin root "__httpim_cache__".data) rel))).pathExists
      (jpgCachePath (pjoin (pjoin root "__httpim_cache__".data) rel)) = true := by
    simp [saveThumb]
  have hdir2 : (saveThumb fs
      (jpgCachePath (pjoin (pjoin root "__httpim_cache__".data) rel))).isDir
      (pjoin root rel) = false := hdir
  have hsecond : do_GET root (saveThumb fs
        (jpgCachePath (pjoin (pjoin root "__httpim_cache__".data) rel))) h p =
      ⟨Resp.file (do_file (saveThumb fs
          (jpgCachePath (pjoin (pjoin root "__httpim_cache__".data) rel))) h
          (jpgCachePath (pjoin (pjoin root "__httpim_cache__".data) rel))),
        saveThumb fs (jpgCachePath (pjoin (pjoin root "__httpim_cache__".data) rel)),
        ⟨[pjoin root rel, jpgCachePath (pjoin (pjoin root "__httpim_cache__".data) rel)],
          [], []⟩⟩ := by
    simp [do_GET, hsafe, hpfx, hdrop, hdir2, hex2]
  refine ⟨?_, ?_, ?_, ?_, ?_, ?_, pjoin_cacheRoot_rel hhd⟩
  · rw [hfirst, hdf]
  · rw [hfirst]
  · rw [hfirst]
    exact hex2
  · rw [hfirst]
    show (do_GET root (saveThumb fs
      (jpgCachePath (pjoin (pjoin root "__httpim_cache__".data) rel))) h p).resp = _
    rw [hsecond, hdf]
  · rw [hfirst]
    show (do_GET root (saveThumb fs
      (jpgCachePath (pjoin (pjoin root "__httpim_cache__".data) rel))) h p).eff.decodedImages
      = _
    rw [hsecond]
  · rw [hfirst]
    show (do_GET root (saveThumb fs
      (jpgCachePath (pjoin (pjoin root "__httpim_cache__".data) rel))) h p).eff.created = _
    rw [hsecond]

/-- Witness for C3 at a concrete decodable source image. -/
theorem C3_witness :
    (do_GET "/srv".data fsC3 hdrNone "/__httpim_cache__/pics/cat.png".data).resp =
        Resp.file (FileResp.ok
          (jpgCachePath (pjoin (pjoin "/srv".data "__httpim_cache__".data) "pics/cat.png".data))
          "image/jpeg".data
          (fsC3.sizeBytes (jpgCachePath
            (pjoin (pjoin "/srv".data "__httpim_cache__".data) "pics/cat.png".data)))) ∧
      (do_GET "/srv".data fsC3 hdrNone "/__httpim_cache__/pics/cat.png".data).eff.created =
        [jpgCachePath (pjoin (pjoin "/srv".data "__httpim_cache__".data) "pics/cat.png".data)] ∧
      (do_GET "/srv".data fsC3 hdrNone "/__httpim_cache__/pics/cat.png".data).fs.pathExists
        (jpgCachePath (pjoin (pjoin "/srv".data "__httpim_cache__".data) "pics/cat.png".data)) =
        true ∧
      (do_GET "/srv".data
          ((do_GET "/srv".data fsC3 hdrNone "/__httpim_cache__/pics/cat.png".data).fs)
          hdrNone "/__httpim_cache__/pics/cat.png".data).resp =
        Resp.file (FileResp.ok
          (jpgCachePath (pjoin (pjoin "/srv".data "__httpim_cache__".data) "pics/cat.png".data))
          "image/jpeg".data
          (fsC3.sizeBytes (jpgCachePath
            (pjoin (pjoin "/srv".data "__httpim_cache__".data) "pics/cat.png".data)))) ∧
      (do_GET "/srv".data
          ((do_GET "/srv".data fsC3 hdrNone "/__httpim_cache__/pics/cat.png".data).fs)
          hdrNone "/__httpim_cache__/pics/cat.png".data).eff.decodedImages = [] ∧
      (do_GET "/srv".data
          ((do_GET "/srv".data fsC3 hdrNone "/__httpim_cache__/pics/cat.png".data).fs)
          hdrNone "/__httpim_cache__/pics/cat.png".data).eff.created = [] ∧
      pjoin (pjoin "/srv".data "__httpim_cache__".data) "pics/cat.png".data =
        pjoin "/srv".data "__httpim_cache__".data ++ '/' :: "pics/cat.png".data :=
  C3_cache_create_then_serve "/srv".data fsC3 hdrNone "/__httpim_cache__/pics/cat.png".data
    "pics/cat.png".data (by decide) (by decide) (by decide) rfl rfl (by decide) (by decide)
    rfl

end Httpim
